import Mathlib

set_option maxRecDepth 100000
set_option maxHeartbeats 1000000

/-!
Verification development for the Memoria activation-energy graph retriever.

This file gives a shallow embedding of the retrieval core:

* `src/backend/src/memory_graph/retriever_parser.py` — the result projections
  (LLM context path strings, debug Cypher reconstruction) and their text
  helpers, modelled over `String` / `List Char` (a Python `str` is a sequence
  of characters).
* `src/backend/src/memory_graph/graph_retriever.py` — the per-seed BFS
  traversal (`GraphRetriever._explore_single`) together with the semantics of
  the `_EXPAND_QUERY` Cypher query it sends to the graph store.
* `src/backend/src/memory_graph/graph_vector_retriever.py` — the weight
  validation performed at construction.

Modelling conventions: IEEE-754 doubles are modelled as exact rationals `ℚ`;
the only non-rational operation, `sqrt(toFloat(degree))`, is an explicit
function parameter `sqrtQ : ℕ → ℚ` of the model (instantiated at concrete
inputs with a function that agrees with the real square root on the degrees
that occur).  Python dicts of string-valued properties are association lists.
-/

/-! ### Character/string utilities (Python `str.split`, `str.rstrip`, `str.replace`) -/

/-- Whitespace test used by Python's argument-less `str.split` / `str.strip`. -/
def isWSChar (c : Char) : Bool := c.isWhitespace

/-- Worker for `splitWs`: `acc` holds the characters of the word in progress,
in reverse order. -/
def splitWsAux : List Char → List Char → List (List Char)
  | [], acc => if acc = [] then [] else [acc.reverse]
  | c :: cs, acc =>
    if isWSChar c then
      if acc = [] then splitWsAux cs [] else acc.reverse :: splitWsAux cs []
    else splitWsAux cs (c :: acc)

/-- Python `text.split()`: maximal runs of non-whitespace characters. -/
def splitWs (l : List Char) : List (List Char) := splitWsAux l []

/-- Python `" ".join(words)` at the character level. -/
def joinSpace : List (List Char) → List Char
  | [] => []
  | [w] => w
  | w :: ws => w ++ ' ' :: joinSpace ws

/-- Python `value.rstrip()`. -/
def rstripChars (l : List Char) : List Char := (l.reverse.dropWhile isWSChar).reverse

/-- Python `value.lstrip()`. -/
def lstripChars (l : List Char) : List Char := l.dropWhile isWSChar

/-- Python `value.strip()`. -/
def stripChars (l : List Char) : List Char := rstripChars (lstripChars l)

/-- Fuelled worker for `replaceAll` (structural recursion on the fuel so the
kernel can evaluate it).  Each step consumes at least one character, so fuel
equal to the input length is always enough. -/
def replaceAllGo (pat rep : List Char) : ℕ → List Char → List Char
  | _, [] => []
  | 0, l => l
  | fuel + 1, c :: cs =>
    if pat.isPrefixOf (c :: cs) ∧ pat ≠ [] then
      rep ++ replaceAllGo pat rep fuel ((c :: cs).drop pat.length)
    else
      c :: replaceAllGo pat rep fuel cs

/-- Python `text.replace(pat, rep)`: left-to-right, non-overlapping.
(`pat = []` never occurs at call sites; it is mapped to the identity.) -/
def replaceAll (pat rep : List Char) (l : List Char) : List Char :=
  replaceAllGo pat rep l.length l

/-! ### `retriever_parser.py` text helpers -/

/-- `_clean_unicode_escapes`: replace the literal escape sequences
`– — ’ “ ”` by `- -- ' " "`. -/
def cleanUnicodeEscapes (text : String) : String :=
  String.mk (replaceAll "\\u201d".data "\"".data
    (replaceAll "\\u201c".data "\"".data
      (replaceAll "\\u2019".data "\x27".data
        (replaceAll "\\u2014".data "--".data
          (replaceAll "\\u2013".data "-".data text.data)))))

/-- `_first_n_words`: the whole text when it has at most `n` words, else the
first `n` words re-joined with single spaces. -/
def firstNWords (text : String) (n : ℕ) : String :=
  let ws := splitWs text.data
  if ws.length ≤ n then text else String.mk (joinSpace (ws.take n))

/-- `_truncate(value, limit)`: identity when short enough, else cut at
`limit - 3`, right-strip, and append `"..."`. -/
def truncateStr (value : String) (limit : ℕ) : String :=
  if value.length ≤ limit then value
  else String.mk (rstripChars (value.data.take (limit - 3))) ++ "..."

/-- Python falsiness of `value.strip()`. -/
def isBlankStr (s : String) : Bool := stripChars s.data = []

/-- `dict.get(key)` over an association list of string properties. -/
def lookupProp (props : List (String × String)) (k : String) : Option String :=
  (props.find? (fun p => p.1 == k)).map (·.2)

/-- The key loop of `_pick_text`. -/
def pickTextGo (props : List (String × String)) : List String → Option String
  | [] => none
  | k :: ks =>
    match lookupProp props k with
    | some v => if isBlankStr v then pickTextGo props ks
                else some (truncateStr (String.mk (stripChars v.data)) 140)
    | none => pickTextGo props ks

/-- `_pick_text`: first non-blank string property among
`title, name, text, summary, description`, stripped and truncated to 140. -/
def pickText (props : List (String × String)) : Option String :=
  pickTextGo props ["title", "name", "text", "summary", "description"]

/-- Number of words of a string (Python `len(text.split())`). -/
def wordCount (s : String) : ℕ := (splitWs s.data).length

/-- The `short_text + ellipsis` display computed inside `_format_node_for_llm`
(after unicode cleaning): first 12 words, `"..."` appended when the text has
more than 12 words. -/
def nodeTextDisplay (text : String) : String :=
  firstNWords text 12 ++ (if 12 < wordCount text then "..." else "")

/-- Python `sep.join(parts)`. -/
def joinSep (sep : String) : List String → String
  | [] => ""
  | [x] => x
  | x :: xs => x ++ sep ++ joinSep sep xs

/-! ### `models.py` structures used by the parser -/

structure GraphNode where
  id : String
  labels : List String
  properties : List (String × String)
deriving DecidableEq

structure GraphEdge where
  source_id : String
  target_id : String
  type : String
  properties : List (String × String)
  weight : Option ℚ
  tags : List String
deriving DecidableEq

structure GraphStep where
  from_node : GraphNode
  edge : GraphEdge
  to_node : GraphNode
  transfer_energy : ℚ
deriving DecidableEq

structure GraphPath where
  steps : List GraphStep
deriving DecidableEq

structure SeedInput where
  node_id : String
  score : ℚ
deriving DecidableEq

structure RetrievalResult where
  seed : SeedInput
  seed_node : Option GraphNode
  paths : List GraphPath
  max_depth_reached : ℕ
  terminated_reason : String
deriving DecidableEq

/-- Seed id used by the projections: the resolved seed node's id when present,
else the requested seed id. -/
def resultSeedId (result : RetrievalResult) : String :=
  match result.seed_node with
  | some n => n.id
  | none => result.seed.node_id

/-! ### `retriever_parser.py`: LLM-context path strings -/

/-- `f"{w:.3f}"`-style fixed-point rendering of a rational (sign, integer
part, three fractional digits).  The exact rounding of Python's float
formatting is immaterial to the claims; round-half-up is used. -/
def pad3 (k : ℕ) : String :=
  if k < 10 then "00" ++ toString k
  else if k < 100 then "0" ++ toString k
  else toString k

def fmt3 (q : ℚ) : String :=
  let n : ℤ := round (q * 1000)
  (if n < 0 then "-" else "") ++ toString (n.natAbs / 1000) ++ "." ++ pad3 (n.natAbs % 1000)

/-- `_format_node_for_llm`. -/
def formatNodeForLLM (node : GraphNode) (is_seed : Bool) : String :=
  let label := node.labels.headD "Node"
  let seedMarker := if is_seed then "[SEED] " else ""
  match pickText node.properties with
  | some t =>
    let ct := cleanUnicodeEscapes t
    seedMarker ++ "(" ++ label ++ " " ++ node.id ++ ": \"" ++ nodeTextDisplay ct ++ "\")"
  | none => seedMarker ++ "(" ++ label ++ " " ++ node.id ++ ")"

/-- `_format_edge_for_llm`: edge id (when nonempty), quoted full cleaned edge
text (when nonempty), `weight=…` (when present), `activation_score=…`. -/
def formatEdgeForLLM (step : GraphStep) : String :=
  let edge_id := (lookupProp step.edge.properties "id").getD ""
  let edge_text := (lookupProp step.edge.properties "text").getD ""
  let parts :=
    (if edge_id ≠ "" then [edge_id] else []) ++
    (if edge_text ≠ "" then ["\"" ++ cleanUnicodeEscapes edge_text ++ "\""] else []) ++
    (match step.edge.weight with
     | some w => ["weight=" ++ fmt3 w]
     | none => []) ++
    ["activation_score=" ++ fmt3 step.transfer_energy]
  "[" ++ joinSep " " parts ++ "]"

/-- Parts list of one path string in `to_llm_context`: formatted `from_node`
of the first step (with the `[SEED]` check), then edge/to-node pairs. -/
def pathParts (seed_id : String) (steps : List GraphStep) : List String :=
  match steps with
  | [] => []
  | s0 :: _ =>
    formatNodeForLLM s0.from_node (s0.from_node.id == seed_id) ::
      steps.foldr (fun st acc => formatEdgeForLLM st :: formatNodeForLLM st.to_node false :: acc) []

/-- The `paths` component of `to_llm_context` (paths enumerated from 1; a path
with no steps contributes no string). -/
def llmPathStrings (seed_id : String) : List GraphPath → ℕ → List String
  | [], _ => []
  | p :: ps, i =>
    let parts := pathParts seed_id p.steps
    (if parts ≠ [] then ["Path " ++ toString i ++ ": " ++ joinSep " -> " parts] else []) ++
      llmPathStrings seed_id ps (i + 1)

def toLLMContextPaths (result : RetrievalResult) : List String :=
  llmPathStrings (resultSeedId result) result.paths 1

/-! ### `retriever_parser.py`: debug Cypher reconstruction -/

/-- `_quote_cypher_literal`: escape backslashes and double quotes, wrap in
double quotes. -/
def quoteCypherLiteral (value : String) : String :=
  "\"" ++ String.mk (replaceAll "\"".data "\\\"".data
    (replaceAll "\\".data "\\\\".data value.data)) ++ "\""

/-- `_cypher_node_pattern`. -/
def cypherNodePattern (aliasName : String) (node_id : String) : String :=
  "(" ++ aliasName ++ " \x7bid: " ++ quoteCypherLiteral node_id ++ "\x7d)"

/-- Node patterns of one path, aliases `n{path_idx}_{node_idx}`. -/
def aliasPatterns (path_idx : ℕ) : ℕ → List String → List String
  | _, [] => []
  | node_idx, nid :: rest =>
    cypherNodePattern ("n" ++ toString path_idx ++ "_" ++ toString node_idx) nid ::
      aliasPatterns path_idx (node_idx + 1) rest

/-- The undirected pattern of one path over `[seed_id] ++ to-node ids`. -/
def pathPattern (path_idx : ℕ) (seed_id : String) (steps : List GraphStep) : String :=
  joinSep "-[:RELATES]-" (aliasPatterns path_idx 0 (seed_id :: steps.map (fun s => s.to_node.id)))

def pathPatternsOf (seed_id : String) : ℕ → List GraphPath → List String
  | _, [] => []
  | i, p :: ps => pathPattern i seed_id p.steps :: pathPatternsOf seed_id (i + 1) ps

def indexedMap (f : ℕ → α → β) : ℕ → List α → List β
  | _, [] => []
  | i, x :: xs => f i x :: indexedMap f (i + 1) xs

structure DebugCypher where
  paths_combined : String
  individual_paths : List String
deriving DecidableEq

/-- `to_debug_cypher`.  `individual_paths` holds one `MATCH p{p} = … RETURN
p{p}` query per path; `paths_combined` is a single multi-pattern `MATCH` with
comma-separated `p{p} = …` patterns and a comma-separated `RETURN`. -/
def toDebugCypher (result : RetrievalResult) : DebugCypher :=
  let path_patterns := pathPatternsOf (resultSeedId result) 0 result.paths
  let individual := indexedMap
    (fun idx pat => "MATCH p" ++ toString idx ++ " = " ++ pat ++ " RETURN p" ++ toString idx)
    0 path_patterns
  let combined :=
    if path_patterns ≠ [] then
      "MATCH " ++ joinSep ", " (indexedMap (fun idx pat => "p" ++ toString idx ++ " = " ++ pat) 0 path_patterns) ++
      " RETURN " ++ joinSep ", " (indexedMap (fun idx _ => "p" ++ toString idx) 0 path_patterns)
    else ""
  ⟨combined, individual⟩

/-! ### `graph_retriever.py`: data classes -/

/-- A node record as decoded from the graph store: its `id` property, labels,
and (string-valued) properties. -/
structure StoreNode where
  id : String
  labels : List String
  props : List (String × String)
deriving DecidableEq

/-- A `RELATES` relationship record: endpoints, optional `weight`, `tags`
(`coalesce(r.tags, [])` makes an absent list equal to `[]`), and the
remaining string-valued properties. -/
structure StoreEdge where
  source : String
  target : String
  weight : Option ℚ
  tags : List String
  props : List (String × String)
deriving DecidableEq

/-- The graph held by the store. -/
structure GraphStore where
  nodes : List StoreNode
  edges : List StoreEdge

/-- `SeedNode` of `graph_retriever.py`. -/
structure SeedNode where
  node_id : String
  score : ℚ
deriving DecidableEq

/-- `PathStep`: destination node (with labels), traversed edge, transfer
energy. -/
structure PathStep where
  node : StoreNode
  edge : StoreEdge
  transfer_energy : ℚ
deriving DecidableEq

/-- `ExploredPath`. -/
structure ExploredPath where
  steps : List PathStep
  depth : ℕ
  final_energy : ℚ
deriving DecidableEq

/-- `ExplorationResult`. -/
structure ExplorationResult where
  seed_id : String
  seed_score : ℚ
  seed_data : Option StoreNode
  seed_labels : List String
  paths : List ExploredPath
  max_depth_reached : ℕ
  terminated_reason : String
deriving DecidableEq

/-- `_FrontierNode`. -/
structure FrontierNode where
  node_id : String
  activation : ℚ
  path : List PathStep
deriving DecidableEq

/-- `ExpansionCandidate`: one record returned by `_EXPAND_QUERY`. -/
structure ExpansionCand where
  parent_id : String
  neighbor : StoreNode
  edge : StoreEdge
  transfer_energy : ℚ
deriving DecidableEq

/-- The `GraphRetriever` configuration captured by `__init__` (the driver
handle is outside the model). -/
structure GraphRetriever where
  max_depth : ℤ
  min_activation : ℚ
  tag_sim_floor : ℚ
  max_branches : ℤ
  database : String

/-- `GraphRetriever.__init__`: plain field assignment, no validation, hence
never an error.  (Python constructors may raise; the `Except` result records
that this one cannot.) -/
def GraphRetriever.construct (max_depth : ℤ) (min_activation tag_sim_floor : ℚ)
    (max_branches : ℤ) (database : String) : Except String GraphRetriever :=
  .ok ⟨max_depth, min_activation, tag_sim_floor, max_branches, database⟩

/-- The Milvus seed retriever's fusion-weight record. -/
structure GraphVectorRetriever where
  bm25_weight : ℚ
  dense_weight : ℚ

/-- `GraphVectorRetriever.__init__` / `_validate_weights`: each weight must
lie in `[0, 1]` and they must not both be zero; otherwise `ValueError`. -/
def GraphVectorRetriever.construct (bm25_weight dense_weight : ℚ) :
    Except String GraphVectorRetriever :=
  if ¬ (0 ≤ bm25_weight ∧ bm25_weight ≤ 1) then
    .error "bm25_weight must be between 0 and 1."
  else if ¬ (0 ≤ dense_weight ∧ dense_weight ≤ 1) then
    .error "dense_weight must be between 0 and 1."
  else if bm25_weight = 0 ∧ dense_weight = 0 then
    .error "Both weights are zero which is invalid."
  else
    .ok ⟨bm25_weight, dense_weight⟩

/-! ### `_EXPAND_QUERY` semantics -/

/-- `MATCH (n {id: $node_id})` — ids are unique in the store. -/
def findNode (g : GraphStore) (nid : String) : Option StoreNode :=
  g.nodes.find? (fun n => n.id == nid)

/-- `COUNT { (current)-[:RELATES]-() }`: undirected degree. -/
def undirectedDegree (g : GraphStore) (nid : String) : ℕ :=
  (g.edges.filter (fun e => e.source == nid || e.target == nid)).length

/-- `MATCH (current)-[r:RELATES]-(neighbor)`: each incident edge together
with the id of its other endpoint. -/
def neighborsOf (g : GraphStore) (nid : String) : List (StoreEdge × String) :=
  g.edges.filterMap (fun e =>
    if e.source == nid then some (e, e.target)
    else if e.target == nid then some (e, e.source)
    else none)

/-- The `CASE` switch computing `tag_sim` (`$query_tags_count` is passed by
the caller as `len(query_tags)`). -/
def tagSimOf (eTags query_tags : List String) (query_tags_count : ℕ)
    (tag_sim_floor : ℚ) : ℚ :=
  if query_tags_count = 0 then 1
  else if eTags.length = 0 then tag_sim_floor
  else
    let inter_count := (eTags.filter (fun t => query_tags.contains t)).length
    tag_sim_floor + (1 - tag_sim_floor) * (inter_count : ℚ) /
      ((eTags.length : ℚ) + (query_tags_count : ℚ) - (inter_count : ℚ))

/-- `(activation * coalesce(r.weight, 0.01) / sqrt(toFloat(degree))) * tag_sim`,
in exactly this operation order. -/
def transferEnergyOf (activation : ℚ) (weight : Option ℚ) (sqrtQ : ℕ → ℚ)
    (degree : ℕ) (tag_sim : ℚ) : ℚ :=
  activation * weight.getD 0.01 / sqrtQ degree * tag_sim

/-- Store-side parameters of one expansion call. -/
structure ExpandCtx where
  g : GraphStore
  query_tags : List String
  query_tags_count : ℕ
  tag_sim_floor : ℚ
  min_threshold : ℚ
  sqrtQ : ℕ → ℚ

/-- Stable insertion (descending `transfer_energy`) used to model
`ORDER BY transfer_energy DESC` within one parent. -/
def insertEnergyDesc (c : ExpansionCand) : List ExpansionCand → List ExpansionCand
  | [] => [c]
  | d :: ds =>
    if d.transfer_energy ≤ c.transfer_energy then c :: d :: ds
    else d :: insertEnergyDesc c ds

def sortEnergyDesc (l : List ExpansionCand) : List ExpansionCand :=
  l.foldr insertEnergyDesc []

/-- One neighbor row of the expansion query: skipped when the neighbor id is
in `$visited_ids` or the energy fails the strict `> $min_threshold` filter. -/
def candOf (ctx : ExpandCtx) (visited : List String) (f : String × ℚ)
    (degree : ℕ) (en : StoreEdge × String) : Option ExpansionCand :=
  match findNode ctx.g en.2 with
  | none => none
  | some nb =>
    if visited.contains en.2 then none
    else
      let tag_sim := tagSimOf en.1.tags ctx.query_tags ctx.query_tags_count ctx.tag_sim_floor
      let te := transferEnergyOf f.2 en.1.weight ctx.sqrtQ degree tag_sim
      if ctx.min_threshold < te then some ⟨f.1, nb, en.1, te⟩ else none

/-- Candidates produced for one frontier row `(node_id, activation)`:
neighbors over incident `RELATES` edges, visited ids filtered out, energies
computed per the query, only `transfer_energy > $min_threshold` kept, ordered
by descending energy. -/
def expandOne (ctx : ExpandCtx) (visited : List String) (f : String × ℚ) :
    List ExpansionCand :=
  match findNode ctx.g f.1 with
  | none => []
  | some _ =>
    sortEnergyDesc ((neighborsOf ctx.g f.1).filterMap
      (candOf ctx visited f (undirectedDegree ctx.g f.1)))

/-- `_EXPAND_QUERY` over the whole `$frontier` (`UNWIND` row order; the
query's global `ORDER BY parent_id` is immaterial because the Python caller
regroups the records by `parent_id`, which preserves exactly the per-parent
descending-energy order modelled here). -/
def expandFrontier (ctx : ExpandCtx) (frontier : List (String × ℚ))
    (visited : List String) : List ExpansionCand :=
  match frontier with
  | [] => []
  | f :: fs => expandOne ctx visited f ++ expandFrontier ctx fs visited

/-! ### `GraphRetriever._explore_single`: BFS loop -/

/-- Per-task traversal state across depth iterations. -/
structure TravState where
  frontier : List FrontierNode
  visited : List String
  completed : List ExploredPath

def mkExploredPath (steps : List PathStep) : ExploredPath :=
  ⟨steps, steps.length, ((steps.getLast?).map (·.transfer_energy)).getD 0⟩

/-- The inner candidate loop of one frontier node: `break` once
`branch_count ≥ max_branches`, skip a neighbor already in `newly_visited`,
otherwise accept it (extend `newly_visited` and the next frontier). -/
def acceptLoop (max_branches : ℤ) (f : FrontierNode) :
    List ExpansionCand → ℤ → List String → List FrontierNode →
    ℤ × List String × List FrontierNode
  | [], bc, nv, nf => (bc, nv, nf)
  | c :: cs, bc, nv, nf =>
    if max_branches ≤ bc then (bc, nv, nf)
    else if nv.contains c.neighbor.id then acceptLoop max_branches f cs bc nv nf
    else
      acceptLoop max_branches f cs (bc + 1) (nv ++ [c.neighbor.id])
        (nf ++ [⟨c.neighbor.id, c.transfer_energy, f.path ++ [⟨c.neighbor, c.edge, c.transfer_energy⟩]⟩])

/-- The per-depth loop over frontier nodes, in the frontier's own order.
`newly_visited` and the next frontier are shared across parents; a parent
with no accepted branch and a nonempty path completes its path. -/
def processFrontier (max_branches : ℤ) (cands : List ExpansionCand) :
    List FrontierNode → List String → List FrontierNode → List ExploredPath →
    List String × List FrontierNode × List ExploredPath
  | [], nv, nf, comp => (nv, nf, comp)
  | f :: fs, nv, nf, comp =>
    let cs := cands.filter (fun c => c.parent_id == f.node_id)
    let r := acceptLoop max_branches f cs 0 nv nf
    processFrontier max_branches cands fs r.2.1 r.2.2
      (if r.1 = 0 ∧ f.path ≠ [] then comp ++ [mkExploredPath f.path] else comp)

/-- One depth iteration of the BFS (a no-op on an empty frontier, matching
the loop's `break`). -/
def stepOnce (ctx : ExpandCtx) (max_branches : ℤ) (st : TravState) : TravState :=
  if st.frontier = [] then st
  else
    let cands := expandFrontier ctx (st.frontier.map (fun f => (f.node_id, f.activation))) st.visited
    let r := processFrontier max_branches cands st.frontier [] [] st.completed
    ⟨r.2.1, st.visited ++ r.1, r.2.2⟩

/-- `for _depth in range(max_depth)` over `stepOnce`. -/
def stepN (ctx : ExpandCtx) (max_branches : ℤ) : ℕ → TravState → TravState
  | 0, st => st
  | n + 1, st => stepN ctx max_branches n (stepOnce ctx max_branches st)

/-- The expansion-call parameters `_explore_single` sends with every
`_EXPAND_QUERY` (`query_tags_count = len(query_tags)`). -/
def mkCtx (g : GraphStore) (r : GraphRetriever) (query_tags : List String)
    (sqrtQ : ℕ → ℚ) : ExpandCtx :=
  { g := g, query_tags := query_tags, query_tags_count := query_tags.length,
    tag_sim_floor := r.tag_sim_floor, min_threshold := r.min_activation,
    sqrtQ := sqrtQ }

/-- Initial traversal state: the frontier holds the seed with its score and
an empty path, `visited = {seed id}`. -/
def initTravState (seed : SeedNode) : TravState :=
  ⟨[⟨seed.node_id, seed.score, []⟩], [seed.node_id], []⟩

/-- Node ids of the current frontier (the ids accepted at the previous depth
iteration). -/
def frontierIds (st : TravState) : List String := st.frontier.map (·.node_id)

/-- `GraphRetriever._explore_single` (one full multi-path BFS exploration
from one seed, inside one read transaction). -/
def exploreSingle (g : GraphStore) (r : GraphRetriever) (seed : SeedNode)
    (query_tags : List String) (sqrtQ : ℕ → ℚ) : ExplorationResult :=
  match findNode g seed.node_id with
  | none =>
    { seed_id := seed.node_id, seed_score := seed.score, seed_data := none,
      seed_labels := [], paths := [], max_depth_reached := 0,
      terminated_reason := "seed_not_found" }
  | some sn =>
    let stF := stepN (mkCtx g r query_tags sqrtQ) r.max_branches r.max_depth.toNat
      (initTravState seed)
    let completed := stF.completed ++
      (stF.frontier.filter (fun f => f.path ≠ [])).map (fun f => mkExploredPath f.path)
    { seed_id := seed.node_id, seed_score := seed.score, seed_data := some sn,
      seed_labels := sn.labels, paths := completed,
      max_depth_reached := (completed.map (·.depth)).foldr max 0,
      terminated_reason := "complete" }

/-! ### Helper measures -/

/-- Total number of characters in a list of words. -/
def sumLens (ws : List (List Char)) : ℕ := (ws.map List.length).sum

/-! ### Concrete fixtures used by witnesses and counterexamples -/

/-- Fixture for the debug-Cypher projection: the S1 scenario's first path,
seed `T3000`, one step to `T3002`. -/
def nodeT3000 : GraphNode := ⟨"T3000", ["Node"], [("id", "T3000")]⟩

def nodeT3002 : GraphNode := ⟨"T3002", ["Node"], [("id", "T3002")]⟩

def s1DebugResult : RetrievalResult :=
  { seed := ⟨"T3000", 1⟩
    seed_node := some nodeT3000
    paths := [⟨[⟨nodeT3000, ⟨"T3000", "T3002", "RELATES", [("id", "E7002")], some 1, ["campaign"]⟩, nodeT3002, 1⟩]⟩]
    max_depth_reached := 1
    terminated_reason := "complete" }

/-- Fixture with two single-step paths from seed `S1` (to `A` and to `B`). -/
def nodeS1 : GraphNode := ⟨"S1", ["Seed"], [("id", "S1")]⟩

def nodeA : GraphNode := ⟨"A", ["Doc"], [("id", "A")]⟩

def nodeB : GraphNode := ⟨"B", ["Doc"], [("id", "B")]⟩

def twoPathDebugResult : RetrievalResult :=
  { seed := ⟨"S1", 1⟩
    seed_node := some nodeS1
    paths := [⟨[⟨nodeS1, ⟨"S1", "A", "RELATES", [], some 1, []⟩, nodeA, 1⟩]⟩,
              ⟨[⟨nodeS1, ⟨"S1", "B", "RELATES", [], some 1, []⟩, nodeB, 1⟩]⟩]
    max_depth_reached := 1
    terminated_reason := "complete" }

/-- Square-root table for the convergence-dedup fixture; agrees with
`sqrt(toFloat(d))` on every degree occurring in that graph (1, 2, 4, 9). -/
def sqrtC6 : ℕ → ℚ := fun n =>
  if n = 1 then 1 else if n = 4 then 2 else if n = 9 then 3 else 0

/-- Convergence-dedup fixture graph.  `S` seeds `A` (first) and `B`; at the
next depth `A` offers candidates `X1, X2, X3, C` in descending energy while
`B` offers `C`; `A`'s branch cap (3) fills before reaching `C`. -/
def gC6 : GraphStore :=
  { nodes := [⟨"S", ["Node"], []⟩, ⟨"A", ["Node"], []⟩, ⟨"B", ["Node"], []⟩,
              ⟨"X1", ["Node"], []⟩, ⟨"X2", ["Node"], []⟩, ⟨"X3", ["Node"], []⟩,
              ⟨"C", ["Node"], []⟩, ⟨"Q1", ["Node"], []⟩, ⟨"Q2", ["Node"], []⟩,
              ⟨"R1", ["Node"], []⟩, ⟨"R2", ["Node"], []⟩, ⟨"R3", ["Node"], []⟩,
              ⟨"R4", ["Node"], []⟩, ⟨"R5", ["Node"], []⟩, ⟨"R6", ["Node"], []⟩]
    edges := [⟨"S", "A", some 0.9, [], []⟩, ⟨"S", "B", some 0.8, [], []⟩,
              ⟨"S", "Q1", some 0.001, [], []⟩, ⟨"S", "Q2", some 0.001, [], []⟩,
              ⟨"A", "X1", some 0.9, [], []⟩, ⟨"A", "X2", some 0.8, [], []⟩,
              ⟨"A", "X3", some 0.7, [], []⟩, ⟨"A", "C", some 0.6, [], []⟩,
              ⟨"A", "R1", some 0.001, [], []⟩, ⟨"A", "R2", some 0.001, [], []⟩,
              ⟨"A", "R3", some 0.001, [], []⟩, ⟨"A", "R4", some 0.001, [], []⟩,
              ⟨"B", "C", some 0.9, [], []⟩, ⟨"B", "R5", some 0.001, [], []⟩,
              ⟨"B", "R6", some 0.001, [], []⟩] }

def rC6 : GraphRetriever := ⟨2, 0.005, 0.15, 3, "memorygraph"⟩

def seedC6 : SeedNode := ⟨"S", 0.9⟩

def ctxC6 : ExpandCtx := mkCtx gC6 rC6 [] sqrtC6

/-- Tiny two-node graph (`S — A`, weight absent so `coalesce` yields `0.01`)
used by expansion witnesses. -/
def gTiny : GraphStore :=
  { nodes := [⟨"S", ["Node"], []⟩, ⟨"A", ["Node"], []⟩]
    edges := [⟨"S", "A", none, [], []⟩] }

def rTiny : GraphRetriever := ⟨2, 0.005, 0.15, 3, "memorygraph"⟩

def sqrtOne : ℕ → ℚ := fun _ => 1

def ctxTiny : ExpandCtx := mkCtx gTiny rTiny [] sqrtOne

/-- The single candidate `expandFrontier` produces on `gTiny` from the seed
row `("S", 1)`. -/
def candTiny : ExpansionCand :=
  ⟨"S", ⟨"A", ["Node"], []⟩, ⟨"S", "A", none, [], []⟩, 0.01⟩

def seedTiny : SeedNode := ⟨"S", 1⟩

/-- 13-word, 140-character string: eleven 10-character words, one 17-character
word, one 1-character word, single spaces. -/
def c10Str : String :=
  "aaaaaaaaaa aaaaaaaaaa aaaaaaaaaa aaaaaaaaaa aaaaaaaaaa aaaaaaaaaa aaaaaaaaaa aaaaaaaaaa aaaaaaaaaa aaaaaaaaaa aaaaaaaaaa bbbbbbbbbbbbbbbbb x"

/-- Thirteen-word node title fixture for the LLM-context witness. -/
def nodeWords : GraphNode :=
  ⟨"N1", ["Doc"], [("title", "w1 w2 w3 w4 w5 w6 w7 w8 w9 w10 w11 w12 w13")]⟩

/-- Step with a long edge text for the LLM-context witness. -/
def stepEdgeText : GraphStep :=
  ⟨nodeWords,
   ⟨"N1", "N2", "RELATES", [("id", "E1"), ("text", "this edge text stays complete and is never cut")], some 1, []⟩,
   ⟨"N2", ["Doc"], [("title", "t")]⟩, 1⟩

def resultEdgeText : RetrievalResult :=
  { seed := ⟨"N1", 1⟩
    seed_node := some nodeWords
    paths := [⟨[stepEdgeText]⟩]
    max_depth_reached := 1
    terminated_reason := "complete" }

/-- Node-id sequence of a path, with the seed's id at position 0. -/
def pathIds (seedId : String) (p : List PathStep) : List String :=
  seedId :: p.map (fun s => s.node.id)

/-! ## Supporting lemmas -/

theorem sortEnergyDesc_cons (c : ExpansionCand) (cs : List ExpansionCand) :
    sortEnergyDesc (c :: cs) = insertEnergyDesc c (sortEnergyDesc cs) := rfl

theorem mem_insertEnergyDesc {a c : ExpansionCand} {l : List ExpansionCand} :
    a ∈ insertEnergyDesc c l ↔ a = c ∨ a ∈ l := by
  induction l with
  | nil => simp [insertEnergyDesc]
  | cons d ds ih =>
    simp only [insertEnergyDesc]
    split
    · simp [List.mem_cons]
    · simp only [List.mem_cons, ih]
      tauto

theorem mem_sortEnergyDesc {a : ExpansionCand} {l : List ExpansionCand} :
    a ∈ sortEnergyDesc l ↔ a ∈ l := by
  induction l with
  | nil => simp [sortEnergyDesc]
  | cons c cs ih =>
    rw [sortEnergyDesc_cons, mem_insertEnergyDesc]
    simp [ih]

theorem findNode_id {g : GraphStore} {nid : String} {n : StoreNode}
    (h : findNode g nid = some n) : n.id = nid := by
  have := List.find?_some h
  simpa using this

/-- Every record of one expansion row: its parent field is the row's id, its
neighbor was not visited, it passed the strict threshold, and its energy is
the scoring-kernel formula. -/
theorem mem_expandOne {ctx : ExpandCtx} {visited : List String} {f : String × ℚ}
    {c : ExpansionCand} (hc : c ∈ expandOne ctx visited f) :
    c.parent_id = f.1 ∧
    c.neighbor.id ∉ visited ∧
    ctx.min_threshold < c.transfer_energy ∧
    c.transfer_energy =
      transferEnergyOf f.2 c.edge.weight ctx.sqrtQ (undirectedDegree ctx.g f.1)
        (tagSimOf c.edge.tags ctx.query_tags ctx.query_tags_count ctx.tag_sim_floor) := by
  unfold expandOne at hc
  cases hfind : findNode ctx.g f.1 with
  | none =>
    rw [hfind] at hc
    simp at hc
  | some cur =>
    rw [hfind] at hc
    rw [mem_sortEnergyDesc] at hc
    obtain ⟨en, hen, heq⟩ := List.mem_filterMap.mp hc
    unfold candOf at heq
    cases hnb : findNode ctx.g en.2 with
    | none =>
      rw [hnb] at heq
      simp at heq
    | some nb =>
      rw [hnb] at heq
      by_cases hvis : visited.contains en.2
      · simp only [if_pos hvis] at heq
        exact absurd heq (by simp)
      · simp only [if_neg hvis] at heq
        split at heq
        · obtain rfl := Option.some.inj heq
          refine ⟨rfl, ?_, by assumption, rfl⟩
          have hid : nb.id = en.2 := findNode_id hnb
          simp only [hid]
          simpa using hvis
        · simp at heq

theorem mem_expandFrontier {ctx : ExpandCtx} {frontier : List (String × ℚ)}
    {visited : List String} {c : ExpansionCand}
    (hc : c ∈ expandFrontier ctx frontier visited) :
    c.neighbor.id ∉ visited ∧
    ctx.min_threshold < c.transfer_energy ∧
    ∃ f ∈ frontier, f.1 = c.parent_id ∧
      c.transfer_energy =
        transferEnergyOf f.2 c.edge.weight ctx.sqrtQ (undirectedDegree ctx.g f.1)
          (tagSimOf c.edge.tags ctx.query_tags ctx.query_tags_count ctx.tag_sim_floor) := by
  induction frontier with
  | nil => simp [expandFrontier] at hc
  | cons f fs ih =>
    rw [expandFrontier] at hc
    rcases List.mem_append.mp hc with h1 | h2
    · obtain ⟨hp, hnv, hlt, hte⟩ := mem_expandOne h1
      exact ⟨hnv, hlt, f, List.mem_cons_self f fs, hp.symm, hte⟩
    · obtain ⟨hnv, hlt, f', hf', rest⟩ := ih h2
      exact ⟨hnv, hlt, f', List.mem_cons_of_mem f hf', rest⟩

/-- With duplicate-free edge tags, the Cypher
`size([t IN eTags WHERE t IN $query_tags])` is the cardinality of the tag-set
intersection. -/
theorem interCount_eq_card (E Q : List String) (hE : E.Nodup) :
    (E.filter (fun t => Q.contains t)).length = (E.toFinset ∩ Q.toFinset).card := by
  have hf : (E.filter (fun t => Q.contains t)).Nodup := hE.filter _
  rw [← List.toFinset_card_of_nodup hf]
  congr 1
  ext a
  simp [List.mem_filter, List.mem_toFinset]

/-! ## Claim theorems -/

/-- **C2.** For every expansion candidate computed with query-tag set `Q` and
edge-tag set `E`: `tag_sim = 1` when `Q` is empty; `tag_sim = tag_sim_floor`
when `Q` is nonempty and `E` is empty; `tag_sim = tag_sim_floor` exactly
whenever `Q` is nonempty and `E ∩ Q = ∅`; and otherwise
`tag_sim = tag_sim_floor + (1 − tag_sim_floor)·|E∩Q| / (|E| + |Q| − |E∩Q|)`
(`query_tags_count` is `len(query_tags)`, as `_explore_single` passes it). -/
theorem c2_tag_sim_cases (E Q : List String) (floorQ : ℚ)
    (hE : E.Nodup) (hQ : Q.Nodup) :
    (Q = [] → tagSimOf E Q Q.length floorQ = 1) ∧
    (Q ≠ [] → E = [] → tagSimOf E Q Q.length floorQ = floorQ) ∧
    (Q ≠ [] → E.toFinset ∩ Q.toFinset = ∅ → tagSimOf E Q Q.length floorQ = floorQ) ∧
    (Q ≠ [] → E ≠ [] →
      tagSimOf E Q Q.length floorQ =
        floorQ + (1 - floorQ) * ((E.toFinset ∩ Q.toFinset).card : ℚ) /
          ((E.toFinset.card : ℚ) + (Q.toFinset.card : ℚ) -
            ((E.toFinset ∩ Q.toFinset).card : ℚ))) := by
  have hql : Q ≠ [] → Q.length ≠ 0 := by
    intro h
    simpa using h
  refine ⟨?_, ?_, ?_, ?_⟩
  · intro hq
    subst hq
    simp [tagSimOf]
  · intro hq hE0
    subst hE0
    simp [tagSimOf, hql hq]
  · intro hq hdisj
    by_cases hE0 : E = []
    · subst hE0
      simp [tagSimOf, hql hq]
    · have hzero : (E.filter (fun t => Q.contains t)).length = 0 := by
        rw [interCount_eq_card E Q hE, hdisj]
        simp
      have hEl : E.length ≠ 0 := by simpa using hE0
      simp only [tagSimOf, if_neg (hql hq), if_neg hEl, hzero]
      push_cast
      simp
  · intro hq hE0
    have hEl : E.length ≠ 0 := by simpa using hE0
    simp only [tagSimOf, if_neg (hql hq), if_neg hEl]
    rw [interCount_eq_card E Q hE, List.toFinset_card_of_nodup hE,
      List.toFinset_card_of_nodup hQ]

/-- Witness for `c2_tag_sim_cases` at `E = [a, b]`, `Q = [a, c]`,
`tag_sim_floor = 0.15`. -/
theorem c2_tag_sim_cases_witness :
    (["a", "c"] = ([] : List String) →
      tagSimOf ["a", "b"] ["a", "c"] (["a", "c"] : List String).length 0.15 = 1) ∧
    (["a", "c"] ≠ ([] : List String) → ["a", "b"] = ([] : List String) →
      tagSimOf ["a", "b"] ["a", "c"] (["a", "c"] : List String).length 0.15 = 0.15) ∧
    (["a", "c"] ≠ ([] : List String) →
      (["a", "b"] : List String).toFinset ∩ (["a", "c"] : List String).toFinset = ∅ →
      tagSimOf ["a", "b"] ["a", "c"] (["a", "c"] : List String).length 0.15 = 0.15) ∧
    (["a", "c"] ≠ ([] : List String) → ["a", "b"] ≠ ([] : List String) →
      tagSimOf ["a", "b"] ["a", "c"] (["a", "c"] : List String).length 0.15 =
        0.15 + (1 - 0.15) *
          (((["a", "b"] : List String).toFinset ∩ (["a", "c"] : List String).toFinset).card : ℚ) /
          (((["a", "b"] : List String).toFinset.card : ℚ) +
            ((["a", "c"] : List String).toFinset.card : ℚ) -
            (((["a", "b"] : List String).toFinset ∩ (["a", "c"] : List String).toFinset).card : ℚ))) :=
  c2_tag_sim_cases ["a", "b"] ["a", "c"] 0.15 (by decide) (by decide)

/-- **C4** (code evidence): on the S1 fixture the code emits
`MATCH p0 = (n0_0 {id: "T3000"})-[:RELATES]-(n0_1 {id: "T3002"}) RETURN p0`
— node-id literals are double-quoted, and no single-quote character occurs,
contradicting the claimed single-quoted projection literal. -/
theorem c4_debug_cypher_double_quoted :
    (toDebugCypher s1DebugResult).individual_paths =
      ["MATCH p0 = (n0_0 \x7bid: \"T3000\"\x7d)-[:RELATES]-(n0_1 \x7bid: \"T3002\"\x7d) RETURN p0"] ∧
    ((toDebugCypher s1DebugResult).individual_paths.all
      (fun s => !(s.data.contains '\x27'))) = true := by
  exact ⟨by decide, by decide⟩

/-- **C5** (code evidence): on a two-path fixture `paths_combined` is one
multi-pattern `MATCH … RETURN p0, p1` and contains no `UNION` keyword,
contradicting the claimed UNION-combined query. -/
theorem c5_paths_combined_single_match :
    (toDebugCypher twoPathDebugResult).paths_combined =
      "MATCH p0 = (n0_0 \x7bid: \"S1\"\x7d)-[:RELATES]-(n0_1 \x7bid: \"A\"\x7d), p1 = (n1_0 \x7bid: \"S1\"\x7d)-[:RELATES]-(n1_1 \x7bid: \"B\"\x7d) RETURN p0, p1" ∧
    ¬ (" UNION ".data <:+: (toDebugCypher twoPathDebugResult).paths_combined.data) := by
  exact ⟨by decide, by decide⟩

/-- **C7** (counterexample): constructing `GraphRetriever` with the
non-positive `max_depth = 0` succeeds — `__init__` performs no validation and
raises nothing, contradicting the claim that such a configuration errors at
construction. -/
theorem c7_nonpositive_depth_accepted :
    (0 : ℤ) ≤ 0 ∧
    GraphRetriever.construct 0 0.005 0.15 3 "memorygraph" =
      .ok ⟨0, 0.005, 0.15, 3, "memorygraph"⟩ :=
  ⟨le_refl 0, rfl⟩

/-- **C7** (amended): an out-of-range or all-zero fusion-weight pair makes
`GraphVectorRetriever` construction raise immediately, while `GraphRetriever`
construction performs no validation and always succeeds, whatever
`max_depth`/`max_branches` are. -/
theorem c7_invalid_config_amended (w1 w2 : ℚ)
    (hbad : ¬ (0 ≤ w1 ∧ w1 ≤ 1) ∨ ¬ (0 ≤ w2 ∧ w2 ≤ 1) ∨ (w1 = 0 ∧ w2 = 0)) :
    (∃ msg, GraphVectorRetriever.construct w1 w2 = .error msg) ∧
    ∀ (d b : ℤ) (ma tf : ℚ) (db : String),
      ∃ cfg, GraphRetriever.construct d ma tf b db = .ok cfg := by
  constructor
  · unfold GraphVectorRetriever.construct
    by_cases h1 : ¬ (0 ≤ w1 ∧ w1 ≤ 1)
    · exact ⟨_, by rw [if_pos h1]⟩
    · rw [if_neg h1]
      by_cases h2 : ¬ (0 ≤ w2 ∧ w2 ≤ 1)
      · exact ⟨_, by rw [if_pos h2]⟩
      · rw [if_neg h2]
        have h3 : w1 = 0 ∧ w2 = 0 := by tauto
        exact ⟨_, by rw [if_pos h3]⟩
  · intro d b ma tf db
    exact ⟨_, rfl⟩

/-- Witness for `c7_invalid_config_amended` at `w1 = 2` (out of range). -/
theorem c7_invalid_config_amended_witness :
    (∃ msg, GraphVectorRetriever.construct 2 0.5 = .error msg) ∧
    ∀ (d b : ℤ) (ma tf : ℚ) (db : String),
      ∃ cfg, GraphRetriever.construct d ma tf b db = .ok cfg :=
  c7_invalid_config_amended 2 0.5 (Or.inl (by norm_num))

/-- **C8.** A seed whose `node_id` has no matching node yields, without
raising, a result with `terminated_reason = "seed_not_found"`, `seed_data =
None`, empty paths and `max_depth_reached = 0`. -/
theorem c8_seed_not_found_contract (g : GraphStore) (r : GraphRetriever)
    (seed : SeedNode) (query_tags : List String) (sqrtQ : ℕ → ℚ)
    (h : findNode g seed.node_id = none) :
    exploreSingle g r seed query_tags sqrtQ =
      { seed_id := seed.node_id, seed_score := seed.score, seed_data := none,
        seed_labels := [], paths := [], max_depth_reached := 0,
        terminated_reason := "seed_not_found" } := by
  unfold exploreSingle
  rw [h]

/-- Witness for `c8_seed_not_found_contract`: seed `Z` absent from `gTiny`. -/
theorem c8_seed_not_found_contract_witness :
    findNode gTiny "Z" = none ∧
    exploreSingle gTiny rTiny ⟨"Z", 1⟩ [] sqrtOne =
      { seed_id := "Z", seed_score := 1, seed_data := none, seed_labels := [],
        paths := [], max_depth_reached := 0,
        terminated_reason := "seed_not_found" } :=
  ⟨by decide, c8_seed_not_found_contract gTiny rTiny ⟨"Z", 1⟩ [] sqrtOne (by decide)⟩

/-- **C1.** Every candidate emitted by the frontier-expansion operation has
`transfer_energy = (a · coalesce(w, 0.01) / sqrt(d)) · tag_sim` for its
parent's activation `a`, the edge weight `w` and the parent's undirected
RELATES degree `d` (in that operation order, over the exact-arithmetic
model), and is emitted only when `transfer_energy > min_activation` holds
strictly. -/
theorem c1_scoring_law (ctx : ExpandCtx) (frontier : List (String × ℚ))
    (visited : List String) (c : ExpansionCand)
    (hc : c ∈ expandFrontier ctx frontier visited) :
    ctx.min_threshold < c.transfer_energy ∧
    ∃ f ∈ frontier, f.1 = c.parent_id ∧
      c.transfer_energy =
        f.2 * c.edge.weight.getD 0.01 / ctx.sqrtQ (undirectedDegree ctx.g f.1) *
          tagSimOf c.edge.tags ctx.query_tags ctx.query_tags_count ctx.tag_sim_floor := by
  obtain ⟨-, hlt, f, hf, hid, hte⟩ := mem_expandFrontier hc
  exact ⟨hlt, f, hf, hid, hte⟩

/-- Witness for `c1_scoring_law`: the single candidate on `gTiny` (absent
weight, so `coalesce` yields `0.01`; energy `1 × 0.01 / 1 × 1 = 0.01`). -/
theorem c1_scoring_law_witness :
    candTiny ∈ expandFrontier ctxTiny [("S", 1)] ["S"] ∧
    (ctxTiny.min_threshold < candTiny.transfer_energy ∧
      ∃ f ∈ [("S", (1 : ℚ))], f.1 = candTiny.parent_id ∧
        candTiny.transfer_energy =
          f.2 * candTiny.edge.weight.getD 0.01 /
              ctxTiny.sqrtQ (undirectedDegree ctxTiny.g f.1) *
            tagSimOf candTiny.edge.tags ctxTiny.query_tags ctxTiny.query_tags_count
              ctxTiny.tag_sim_floor) := by
  have hmem : candTiny ∈ expandFrontier ctxTiny [("S", 1)] ["S"] := by
    simp [expandFrontier, expandOne, candOf, ctxTiny, mkCtx, gTiny, rTiny,
      sqrtOne, findNode, neighborsOf, undirectedDegree, tagSimOf,
      transferEnergyOf, sortEnergyDesc, insertEnergyDesc, candTiny,
      List.find?, List.filterMap]
    norm_num [insertEnergyDesc]
  exact ⟨hmem, c1_scoring_law ctxTiny [("S", 1)] ["S"] candTiny hmem⟩

theorem not_mem_of_contains_eq_false {l : List String} {a : String}
    (h : ¬ l.contains a = true) : a ∉ l := by
  simpa using h

theorem pathIds_append (seedId : String) (p : List PathStep) (st : PathStep) :
    pathIds seedId (p ++ [st]) = pathIds seedId p ++ [st.node.id] := by
  simp [pathIds]

/-- `acceptLoop` keeps `newly_visited` in lockstep with the ids of the next
frontier it builds. -/
theorem acceptLoop_ids (mb : ℤ) (f : FrontierNode) (cs : List ExpansionCand)
    (bc : ℤ) (nv : List String) (nf : List FrontierNode)
    (h : nf.map (·.node_id) = nv) :
    (acceptLoop mb f cs bc nv nf).2.2.map (·.node_id) =
      (acceptLoop mb f cs bc nv nf).2.1 := by
  induction cs generalizing bc nv nf with
  | nil => simpa [acceptLoop] using h
  | cons c cs ih =>
    simp only [acceptLoop]
    split
    · simpa using h
    · split
      · exact ih _ _ _ h
      · apply ih
        simp [h]

/-- `acceptLoop` only appends to `newly_visited`. -/
theorem acceptLoop_nv_ext (mb : ℤ) (f : FrontierNode) (cs : List ExpansionCand)
    (bc : ℤ) (nv : List String) (nf : List FrontierNode) :
    ∃ ext, (acceptLoop mb f cs bc nv nf).2.1 = nv ++ ext := by
  induction cs generalizing bc nv nf with
  | nil => exact ⟨[], by simp [acceptLoop]⟩
  | cons c cs ih =>
    simp only [acceptLoop]
    split
    · exact ⟨[], by simp⟩
    · split
      · exact ih _ _ _
      · obtain ⟨ext, hext⟩ := ih (bc + 1) (nv ++ [c.neighbor.id])
          (nf ++ [⟨c.neighbor.id, c.transfer_energy,
            f.path ++ [⟨c.neighbor, c.edge, c.transfer_energy⟩]⟩])
        exact ⟨[c.neighbor.id] ++ ext, by simp [hext]⟩

/-- Ids added by `acceptLoop` come from the candidate list, hence are not in
`visited`. -/
theorem acceptLoop_fresh (mb : ℤ) (f : FrontierNode) (cs : List ExpansionCand)
    (bc : ℤ) (nv : List String) (nf : List FrontierNode) (visited : List String)
    (hcs : ∀ c ∈ cs, c.neighbor.id ∉ visited)
    (hnv : ∀ x ∈ nv, x ∉ visited) :
    ∀ x ∈ (acceptLoop mb f cs bc nv nf).2.1, x ∉ visited := by
  induction cs generalizing bc nv nf with
  | nil => simpa [acceptLoop] using hnv
  | cons c cs ih =>
    simp only [acceptLoop]
    split
    · simpa using hnv
    · split
      · exact ih _ _ _ (fun d hd => hcs d (List.mem_cons_of_mem c hd)) hnv
      · refine ih _ _ _ (fun d hd => hcs d (List.mem_cons_of_mem c hd)) ?_
        intro x hx
        rcases List.mem_append.mp hx with hx | hx
        · exact hnv x hx
        · rcases List.mem_singleton.mp hx with rfl
          exact hcs c (List.mem_cons_self c cs)

/-- `newly_visited` stays duplicate-free: a neighbor already accepted at this
depth is skipped. -/
theorem acceptLoop_nodup (mb : ℤ) (f : FrontierNode) (cs : List ExpansionCand)
    (bc : ℤ) (nv : List String) (nf : List FrontierNode)
    (h : nv.Nodup) :
    (acceptLoop mb f cs bc nv nf).2.1.Nodup := by
  induction cs generalizing bc nv nf with
  | nil => simpa [acceptLoop] using h
  | cons c cs ih =>
    simp only [acceptLoop]
    split
    · simpa using h
    · split
      · exact ih _ _ _ h
      · rename_i hnc
        apply ih
        simp only [List.nodup_append, h, List.nodup_cons, List.not_mem_nil,
          not_false_iff, List.nodup_nil, and_true, true_and, List.disjoint_singleton]
        simpa using hnc

/-- Paths built by `acceptLoop` stay duplicate-free (including the seed id)
and stay inside `visited ++ newly_visited`. -/
theorem acceptLoop_paths (seedId : String) (mb : ℤ) (f : FrontierNode)
    (cs : List ExpansionCand) (bc : ℤ) (nv : List String) (nf : List FrontierNode)
    (visited : List String)
    (hcs : ∀ c ∈ cs, c.neighbor.id ∉ visited)
    (hf : (pathIds seedId f.path).Nodup ∧ ∀ x ∈ pathIds seedId f.path, x ∈ visited)
    (hnf : ∀ f' ∈ nf, (pathIds seedId f'.path).Nodup ∧
        ∀ x ∈ pathIds seedId f'.path, x ∈ visited ++ nv) :
    ∀ f' ∈ (acceptLoop mb f cs bc nv nf).2.2,
      (pathIds seedId f'.path).Nodup ∧
      ∀ x ∈ pathIds seedId f'.path, x ∈ visited ++ (acceptLoop mb f cs bc nv nf).2.1 := by
  induction cs generalizing bc nv nf with
  | nil => simpa [acceptLoop] using hnf
  | cons c cs ih =>
    simp only [acceptLoop]
    split
    · simpa using hnf
    · split
      · exact ih _ _ _ (fun d hd => hcs d (List.mem_cons_of_mem c hd)) hnf
      · refine ih _ _ _ (fun d hd => hcs d (List.mem_cons_of_mem c hd)) ?_
        intro f' hf'
        rcases List.mem_append.mp hf' with hf' | hf'
        · obtain ⟨h1, h2⟩ := hnf f' hf'
          refine ⟨h1, fun x hx => ?_⟩
          rcases List.mem_append.mp (h2 x hx) with hx' | hx'
          · exact List.mem_append.mpr (Or.inl hx')
          · exact List.mem_append.mpr (Or.inr (List.mem_append.mpr (Or.inl hx')))
        · rcases List.mem_singleton.mp hf' with rfl
          have hfresh : c.neighbor.id ∉ visited := hcs c (List.mem_cons_self c cs)
          constructor
          · rw [pathIds_append]
            simp only [List.nodup_append, hf.1, List.nodup_cons, List.not_mem_nil,
              not_false_iff, List.nodup_nil, and_true, true_and, List.disjoint_singleton]
            intro hmem
            exact hfresh (hf.2 _ hmem)
          · intro x hx
            rw [pathIds_append] at hx
            rcases List.mem_append.mp hx with hx | hx
            · exact List.mem_append.mpr (Or.inl (hf.2 x hx))
            · rcases List.mem_singleton.mp hx with rfl
              exact List.mem_append.mpr (Or.inr (List.mem_append.mpr
                (Or.inr (by simp))))

/-- `processFrontier` keeps `newly_visited` fresh w.r.t. `visited`,
duplicate-free, and in lockstep with the ids of the next frontier. -/
theorem processFrontier_ids (mb : ℤ) (cands : List ExpansionCand)
    (fs : List FrontierNode) (nv : List String) (nf : List FrontierNode)
    (comp : List ExploredPath) (visited : List String)
    (hcands : ∀ c ∈ cands, c.neighbor.id ∉ visited)
    (hnv : ∀ x ∈ nv, x ∉ visited)
    (hnvd : nv.Nodup)
    (hids : nf.map (·.node_id) = nv) :
    (∀ x ∈ (processFrontier mb cands fs nv nf comp).1, x ∉ visited) ∧
    (processFrontier mb cands fs nv nf comp).1.Nodup ∧
    (processFrontier mb cands fs nv nf comp).2.1.map (·.node_id) =
      (processFrontier mb cands fs nv nf comp).1 := by
  induction fs generalizing nv nf comp with
  | nil => exact ⟨hnv, hnvd, hids⟩
  | cons f fs ih =>
    simp only [processFrontier]
    have hcs : ∀ c ∈ cands.filter (fun c => c.parent_id == f.node_id),
        c.neighbor.id ∉ visited :=
      fun c hc => hcands c (List.mem_of_mem_filter hc)
    exact ih _ _ _
      (acceptLoop_fresh mb f _ 0 nv nf visited hcs hnv)
      (acceptLoop_nodup mb f _ 0 nv nf hnvd)
      (acceptLoop_ids mb f _ 0 nv nf hids)

/-- `processFrontier` keeps every frontier path and every completed path
duplicate-free, with all path ids inside `visited ++ newly_visited`. -/
theorem processFrontier_paths (seedId : String) (mb : ℤ)
    (cands : List ExpansionCand) (fs : List FrontierNode) (nv : List String)
    (nf : List FrontierNode) (comp : List ExploredPath) (visited : List String)
    (hcands : ∀ c ∈ cands, c.neighbor.id ∉ visited)
    (hfs : ∀ f ∈ fs, (pathIds seedId f.path).Nodup ∧
        ∀ x ∈ pathIds seedId f.path, x ∈ visited)
    (hnf : ∀ f' ∈ nf, (pathIds seedId f'.path).Nodup ∧
        ∀ x ∈ pathIds seedId f'.path, x ∈ visited ++ nv)
    (hcomp : ∀ p ∈ comp, (pathIds seedId p.steps).Nodup) :
    (∀ f' ∈ (processFrontier mb cands fs nv nf comp).2.1,
        (pathIds seedId f'.path).Nodup ∧
        ∀ x ∈ pathIds seedId f'.path,
          x ∈ visited ++ (processFrontier mb cands fs nv nf comp).1) ∧
    (∀ p ∈ (processFrontier mb cands fs nv nf comp).2.2,
        (pathIds seedId p.steps).Nodup) := by
  induction fs generalizing nv nf comp with
  | nil => exact ⟨hnf, hcomp⟩
  | cons f fs ih =>
    simp only [processFrontier]
    have hcs : ∀ c ∈ cands.filter (fun c => c.parent_id == f.node_id),
        c.neighbor.id ∉ visited :=
      fun c hc => hcands c (List.mem_of_mem_filter hc)
    have hfhead := hfs f (List.mem_cons_self f fs)
    refine ih _ _ _
      (fun g hg => hfs g (List.mem_cons_of_mem f hg))
      (acceptLoop_paths seedId mb f _ 0 nv nf visited hcs hfhead hnf)
      ?_
    intro p hp
    split at hp
    · rcases List.mem_append.mp hp with hp | hp
      · exact hcomp p hp
      · rcases List.mem_singleton.mp hp with rfl
        exact hfhead.1
    · exact hcomp p hp

/-- One depth iteration: `visited` only grows, the new frontier's ids are
fresh (not previously visited), recorded in the new `visited`, and
duplicate-free. -/
theorem stepOnce_ids (ctx : ExpandCtx) (mb : ℤ) (st : TravState) :
    (∃ ext, (stepOnce ctx mb st).visited = st.visited ++ ext) ∧
    (∀ nid ∈ frontierIds (stepOnce ctx mb st),
        nid ∉ st.visited ∧ nid ∈ (stepOnce ctx mb st).visited) ∧
    (frontierIds (stepOnce ctx mb st)).Nodup := by
  unfold stepOnce
  split
  · rename_i hemp
    refine ⟨⟨[], by simp⟩, ?_, ?_⟩
    · intro nid hnid
      rw [frontierIds, hemp] at hnid
      simp at hnid
    · rw [frontierIds, hemp]
      simp
  · have hcands : ∀ c ∈ expandFrontier ctx
        (st.frontier.map (fun f => (f.node_id, f.activation))) st.visited,
        c.neighbor.id ∉ st.visited :=
      fun c hc => (mem_expandFrontier hc).1
    obtain ⟨hfresh, hnodup, hids⟩ := processFrontier_ids mb _ st.frontier [] [] st.completed
      st.visited hcands (by simp) (by simp) (by simp)
    refine ⟨⟨_, rfl⟩, ?_, ?_⟩
    · intro nid hnid
      rw [frontierIds] at hnid
      simp only at hnid
      rw [hids] at hnid
      exact ⟨hfresh nid hnid, List.mem_append.mpr (Or.inr hnid)⟩
    · rw [frontierIds]
      simp only
      rw [hids]
      exact hnodup

/-- One depth iteration preserves the path invariant: every frontier path and
every completed path is duplicate-free (seed id included) and frontier paths
stay inside `visited`. -/
theorem stepOnce_inv (ctx : ExpandCtx) (mb : ℤ) (seedId : String) (st : TravState)
    (hfr : ∀ f ∈ st.frontier, (pathIds seedId f.path).Nodup ∧
        ∀ x ∈ pathIds seedId f.path, x ∈ st.visited)
    (hcomp : ∀ p ∈ st.completed, (pathIds seedId p.steps).Nodup) :
    (∀ f ∈ (stepOnce ctx mb st).frontier,
        (pathIds seedId f.path).Nodup ∧
        ∀ x ∈ pathIds seedId f.path, x ∈ (stepOnce ctx mb st).visited) ∧
    (∀ p ∈ (stepOnce ctx mb st).completed, (pathIds seedId p.steps).Nodup) := by
  unfold stepOnce
  split
  · exact ⟨hfr, hcomp⟩
  · have hcands : ∀ c ∈ expandFrontier ctx
        (st.frontier.map (fun f => (f.node_id, f.activation))) st.visited,
        c.neighbor.id ∉ st.visited :=
      fun c hc => (mem_expandFrontier hc).1
    obtain ⟨hnf, hc⟩ := processFrontier_paths seedId mb _ st.frontier [] []
      st.completed st.visited hcands hfr (by simp) hcomp
    exact ⟨hnf, hc⟩

theorem stepN_inv (ctx : ExpandCtx) (mb : ℤ) (seedId : String) (n : ℕ)
    (st : TravState)
    (hfr : ∀ f ∈ st.frontier, (pathIds seedId f.path).Nodup ∧
        ∀ x ∈ pathIds seedId f.path, x ∈ st.visited)
    (hcomp : ∀ p ∈ st.completed, (pathIds seedId p.steps).Nodup) :
    (∀ f ∈ (stepN ctx mb n st).frontier,
        (pathIds seedId f.path).Nodup ∧
        ∀ x ∈ pathIds seedId f.path, x ∈ (stepN ctx mb n st).visited) ∧
    (∀ p ∈ (stepN ctx mb n st).completed, (pathIds seedId p.steps).Nodup) := by
  induction n generalizing st with
  | zero => exact ⟨hfr, hcomp⟩
  | succ n ih =>
    obtain ⟨hfr', hcomp'⟩ := stepOnce_inv ctx mb seedId st hfr hcomp
    exact ih (stepOnce ctx mb st) hfr' hcomp'

theorem stepN_visited_ext (ctx : ExpandCtx) (mb : ℤ) (n : ℕ) (st : TravState) :
    ∃ ext, (stepN ctx mb n st).visited = st.visited ++ ext := by
  induction n generalizing st with
  | zero => exact ⟨[], by simp [stepN]⟩
  | succ n ih =>
    obtain ⟨ext1, h1⟩ := (stepOnce_ids ctx mb st).1
    obtain ⟨ext2, h2⟩ := ih (stepOnce ctx mb st)
    exact ⟨ext1 ++ ext2, by simp [stepN, h2, h1]⟩

theorem stepN_add (ctx : ExpandCtx) (mb : ℤ) (m n : ℕ) (st : TravState) :
    stepN ctx mb (m + n) st = stepN ctx mb n (stepN ctx mb m st) := by
  induction m generalizing st with
  | zero => simp [stepN]
  | succ m ih =>
    have : m + 1 + n = (m + n) + 1 := by omega
    rw [this]
    show stepN ctx mb (m + n) (stepOnce ctx mb st) =
      stepN ctx mb n (stepN ctx mb m (stepOnce ctx mb st))
    exact ih (stepOnce ctx mb st)

/-- **C3.** In every `ExplorationResult`, the node ids along each returned
path — with the seed's id at position 0 — are pairwise distinct; and a node
id accepted into the frontier at some depth iteration is never accepted again
at any later iteration of the same exploration. -/
theorem c3_acyclic_paths (g : GraphStore) (r : GraphRetriever) (seed : SeedNode)
    (query_tags : List String) (sqrtQ : ℕ → ℚ) :
    (∀ p ∈ (exploreSingle g r seed query_tags sqrtQ).paths,
        (seed.node_id :: p.steps.map (fun s => s.node.id)).Nodup) ∧
    (∀ i j : ℕ, i < j → ∀ nid,
        nid ∈ frontierIds (stepN (mkCtx g r query_tags sqrtQ) r.max_branches
          (i + 1) (initTravState seed)) →
        nid ∉ frontierIds (stepN (mkCtx g r query_tags sqrtQ) r.max_branches
          (j + 1) (initTravState seed))) := by
  have hinit_fr : ∀ f ∈ (initTravState seed).frontier,
      (pathIds seed.node_id f.path).Nodup ∧
      ∀ x ∈ pathIds seed.node_id f.path, x ∈ (initTravState seed).visited := by
    intro f hf
    simp only [initTravState, List.mem_singleton] at hf
    subst hf
    simp [pathIds, initTravState]
  have hinit_comp : ∀ p ∈ (initTravState seed).completed,
      (pathIds seed.node_id p.steps).Nodup := by
    intro p hp
    simp [initTravState] at hp
  constructor
  · intro p hp
    unfold exploreSingle at hp
    cases hfind : findNode g seed.node_id with
    | none =>
      rw [hfind] at hp
      simp at hp
    | some sn =>
      rw [hfind] at hp
      dsimp only at hp
      obtain ⟨hfr, hcomp⟩ := stepN_inv (mkCtx g r query_tags sqrtQ)
        r.max_branches seed.node_id r.max_depth.toNat (initTravState seed)
        hinit_fr hinit_comp
      rcases List.mem_append.mp hp with hp | hp
      · simpa [pathIds] using hcomp p hp
      · obtain ⟨f, hf, rfl⟩ := List.mem_map.mp hp
        have := (hfr f (List.mem_of_mem_filter hf)).1
        simpa [pathIds, mkExploredPath] using this
  · intro i j hij nid hmem
    set ctx := mkCtx g r query_tags sqrtQ
    set st0 := initTravState seed
    rw [stepN_add ctx r.max_branches i 1 st0] at hmem
    have h1 : nid ∈ (stepN ctx r.max_branches 1 (stepN ctx r.max_branches i st0)).visited :=
      ((stepOnce_ids ctx r.max_branches (stepN ctx r.max_branches i st0)).2.1 nid hmem).2
    rw [← stepN_add ctx r.max_branches i 1 st0] at h1
    have h2 : nid ∈ (stepN ctx r.max_branches j st0).visited := by
      obtain ⟨k, rfl⟩ : ∃ k, j = (i + 1) + k := ⟨j - (i + 1), by omega⟩
      rw [stepN_add ctx r.max_branches (i + 1) k st0]
      obtain ⟨ext, hext⟩ := stepN_visited_ext ctx r.max_branches k
        (stepN ctx r.max_branches (i + 1) st0)
      rw [hext]
      exact List.mem_append.mpr (Or.inl h1)
    rw [stepN_add ctx r.max_branches j 1 st0]
    intro hcontra
    exact ((stepOnce_ids ctx r.max_branches (stepN ctx r.max_branches j st0)).2.1
      nid hcontra).1 h2

/-- Witness for `c3_acyclic_paths`: the single path on `gTiny` is acyclic,
and the id `A`, accepted at the first depth iteration, is not accepted again
at the second. -/
theorem c3_acyclic_paths_witness :
    (("S" : String) ::
      ([⟨⟨"A", ["Node"], []⟩, ⟨"S", "A", none, [], []⟩, 0.01⟩] : List PathStep).map
        (fun s => s.node.id)).Nodup ∧
    "A" ∉ frontierIds (stepN (mkCtx gTiny rTiny [] sqrtOne) rTiny.max_branches
      (1 + 1) (initTravState seedTiny)) := by
  have hpaths : (exploreSingle gTiny rTiny seedTiny [] sqrtOne).paths =
      [⟨[⟨⟨"A", ["Node"], []⟩, ⟨"S", "A", none, [], []⟩, 0.01⟩], 1, 0.01⟩] := by
    simp [exploreSingle, stepN, stepOnce, processFrontier, acceptLoop,
      expandFrontier, expandOne, candOf, mkExploredPath, findNode, neighborsOf,
      undirectedDegree, tagSimOf, transferEnergyOf, sortEnergyDesc,
      insertEnergyDesc, mkCtx, initTravState, frontierIds, gTiny, rTiny,
      seedTiny, sqrtOne, List.find?, List.filterMap]
    norm_num [insertEnergyDesc, acceptLoop, processFrontier, stepN, stepOnce,
      mkExploredPath]
  have hmem : (⟨[⟨⟨"A", ["Node"], []⟩, ⟨"S", "A", none, [], []⟩, 0.01⟩], 1, 0.01⟩ :
      ExploredPath) ∈ (exploreSingle gTiny rTiny seedTiny [] sqrtOne).paths := by
    rw [hpaths]
    simp
  have hfr : "A" ∈ frontierIds (stepN (mkCtx gTiny rTiny [] sqrtOne)
      rTiny.max_branches (0 + 1) (initTravState seedTiny)) := by
    simp [stepN, stepOnce, processFrontier, acceptLoop, expandFrontier,
      expandOne, candOf, findNode, neighborsOf, undirectedDegree, tagSimOf,
      transferEnergyOf, sortEnergyDesc, insertEnergyDesc, mkCtx, initTravState,
      frontierIds, gTiny, rTiny, seedTiny, sqrtOne, List.find?, List.filterMap]
    norm_num [insertEnergyDesc, acceptLoop, processFrontier]
  exact ⟨(c3_acyclic_paths gTiny rTiny seedTiny [] sqrtOne).1 _ hmem,
    (c3_acyclic_paths gTiny rTiny seedTiny [] sqrtOne).2 0 1 (by norm_num) "A" hfr⟩

/-- **C6** (counterexample): at depth 2 of the `gC6` exploration the frontier
is `[A, B]` (`A` first) and *both* parents have an emitted expansion
candidate for the unvisited neighbor `C`; yet `C` is reached by `B`'s child
path, not `A`'s — `A`'s branch cap fills on its three higher-energy
candidates first — so the neighbor is *not* accepted by whichever frontier
entry comes first, and it is the earlier parent's candidate that is skipped. -/
theorem c6_convergence_dedup_counterexample :
    frontierIds (stepN ctxC6 rC6.max_branches 1 (initTravState seedC6)) = ["A", "B"] ∧
    ((expandFrontier ctxC6
        ((stepN ctxC6 rC6.max_branches 1 (initTravState seedC6)).frontier.map
          (fun f => (f.node_id, f.activation)))
        (stepN ctxC6 rC6.max_branches 1 (initTravState seedC6)).visited).any
      (fun c => c.parent_id == "A" && c.neighbor.id == "C")) = true ∧
    ((expandFrontier ctxC6
        ((stepN ctxC6 rC6.max_branches 1 (initTravState seedC6)).frontier.map
          (fun f => (f.node_id, f.activation)))
        (stepN ctxC6 rC6.max_branches 1 (initTravState seedC6)).visited).any
      (fun c => c.parent_id == "B" && c.neighbor.id == "C")) = true ∧
    ((exploreSingle gC6 rC6 seedC6 [] sqrtC6).paths.map
      (fun p => p.steps.map (fun s => s.node.id))) =
      [["A", "X1"], ["A", "X2"], ["A", "X3"], ["B", "C"]] := by
  refine ⟨?_, ?_, ?_, ?_⟩ <;>
  · simp [exploreSingle, stepN, stepOnce, processFrontier, acceptLoop,
      expandFrontier, expandOne, candOf, mkExploredPath, findNode, neighborsOf,
      undirectedDegree, tagSimOf, transferEnergyOf, sortEnergyDesc,
      insertEnergyDesc, mkCtx, initTravState, frontierIds, ctxC6, gC6, rC6,
      seedC6, sqrtC6, List.find?, List.filterMap]
    try norm_num [exploreSingle, stepN, stepOnce, processFrontier, acceptLoop,
      expandFrontier, expandOne, candOf, mkExploredPath, findNode, neighborsOf,
      undirectedDegree, tagSimOf, transferEnergyOf, sortEnergyDesc,
      insertEnergyDesc, mkCtx, initTravState, frontierIds, ctxC6, gC6, rC6,
      seedC6, sqrtC6, List.find?, List.filterMap]
    try simp [exploreSingle, stepN, stepOnce, processFrontier, acceptLoop,
      expandFrontier, expandOne, candOf, mkExploredPath, findNode, neighborsOf,
      undirectedDegree, tagSimOf, transferEnergyOf, sortEnergyDesc,
      insertEnergyDesc, mkCtx, initTravState, frontierIds, ctxC6, gC6, rC6,
      seedC6, sqrtC6, List.find?, List.filterMap]
    try norm_num [exploreSingle, stepN, stepOnce, processFrontier, acceptLoop,
      expandFrontier, expandOne, candOf, mkExploredPath, findNode, neighborsOf,
      undirectedDegree, tagSimOf, transferEnergyOf, sortEnergyDesc,
      insertEnergyDesc, mkCtx, initTravState, frontierIds, ctxC6, gC6, rC6,
      seedC6, sqrtC6, List.find?, List.filterMap]
    try simp [exploreSingle, stepN, stepOnce, processFrontier, acceptLoop,
      expandFrontier, expandOne, candOf, mkExploredPath, findNode, neighborsOf,
      undirectedDegree, tagSimOf, transferEnergyOf, sortEnergyDesc,
      insertEnergyDesc, mkCtx, initTravState, frontierIds, ctxC6, gC6, rC6,
      seedC6, sqrtC6, List.find?, List.filterMap]
    try norm_num [exploreSingle, stepN, stepOnce, processFrontier, acceptLoop,
      expandFrontier, expandOne, candOf, mkExploredPath, findNode, neighborsOf,
      undirectedDegree, tagSimOf, transferEnergyOf, sortEnergyDesc,
      insertEnergyDesc, mkCtx, initTravState, frontierIds, ctxC6, gC6, rC6,
      seedC6, sqrtC6, List.find?, List.filterMap]
    try exact ⟨_, Or.inl (Or.inr (Or.inr (Or.inr rfl))), rfl, rfl⟩
    try exact ⟨_, Or.inr rfl, rfl, rfl⟩

/-- **C6** (amended): within one depth iteration a neighbor id is accepted at
most once — the next frontier's ids are pairwise distinct, and each of them
heads exactly one child — whichever frontier entry first reaches a candidate
for it *within its branch cap*; a later parent's candidate for an
already-accepted neighbor is skipped, but when the earlier parent's branch
cap prevents acceptance, a later parent may be the one that accepts. -/
theorem c6_convergence_dedup_amended (ctx : ExpandCtx) (mb : ℤ) (st : TravState) :
    (frontierIds (stepOnce ctx mb st)).Nodup ∧
    ∀ nid ∈ frontierIds (stepOnce ctx mb st),
      (frontierIds (stepOnce ctx mb st)).count nid = 1 := by
  have hnodup := (stepOnce_ids ctx mb st).2.2
  exact ⟨hnodup, fun nid hnid => List.count_eq_one_of_mem hnodup hnid⟩

/-- Witness for `c6_convergence_dedup_amended` at the contested neighbor `C`
of the `gC6` depth-2 iteration. -/
theorem c6_convergence_dedup_amended_witness :
    (frontierIds (stepOnce ctxC6 rC6.max_branches
      (stepN ctxC6 rC6.max_branches 1 (initTravState seedC6)))).Nodup ∧
    (frontierIds (stepOnce ctxC6 rC6.max_branches
      (stepN ctxC6 rC6.max_branches 1 (initTravState seedC6)))).count "C" = 1 := by
  have hmem : "C" ∈ frontierIds (stepOnce ctxC6 rC6.max_branches
      (stepN ctxC6 rC6.max_branches 1 (initTravState seedC6))) := by
    simp [stepN, stepOnce, processFrontier, acceptLoop, expandFrontier,
      expandOne, candOf, findNode, neighborsOf, undirectedDegree, tagSimOf,
      transferEnergyOf, sortEnergyDesc, insertEnergyDesc, mkCtx, initTravState,
      frontierIds, ctxC6, gC6, rC6, seedC6, sqrtC6, List.find?, List.filterMap]
    try norm_num [stepN, stepOnce, processFrontier, acceptLoop, expandFrontier,
      expandOne, candOf, findNode, neighborsOf, undirectedDegree, tagSimOf,
      transferEnergyOf, sortEnergyDesc, insertEnergyDesc, mkCtx, initTravState,
      frontierIds, ctxC6, gC6, rC6, seedC6, sqrtC6, List.find?, List.filterMap]
    try simp [stepN, stepOnce, processFrontier, acceptLoop, expandFrontier,
      expandOne, candOf, findNode, neighborsOf, undirectedDegree, tagSimOf,
      transferEnergyOf, sortEnergyDesc, insertEnergyDesc, mkCtx, initTravState,
      frontierIds, ctxC6, gC6, rC6, seedC6, sqrtC6, List.find?, List.filterMap]
    try norm_num [stepN, stepOnce, processFrontier, acceptLoop, expandFrontier,
      expandOne, candOf, findNode, neighborsOf, undirectedDegree, tagSimOf,
      transferEnergyOf, sortEnergyDesc, insertEnergyDesc, mkCtx, initTravState,
      frontierIds, ctxC6, gC6, rC6, seedC6, sqrtC6, List.find?, List.filterMap]
    try simp [stepN, stepOnce, processFrontier, acceptLoop, expandFrontier,
      expandOne, candOf, findNode, neighborsOf, undirectedDegree, tagSimOf,
      transferEnergyOf, sortEnergyDesc, insertEnergyDesc, mkCtx, initTravState,
      frontierIds, ctxC6, gC6, rC6, seedC6, sqrtC6, List.find?, List.filterMap]
    try norm_num [stepN, stepOnce, processFrontier, acceptLoop, expandFrontier,
      expandOne, candOf, findNode, neighborsOf, undirectedDegree, tagSimOf,
      transferEnergyOf, sortEnergyDesc, insertEnergyDesc, mkCtx, initTravState,
      frontierIds, ctxC6, gC6, rC6, seedC6, sqrtC6, List.find?, List.filterMap]
  exact ⟨(c6_convergence_dedup_amended ctxC6 rC6.max_branches
      (stepN ctxC6 rC6.max_branches 1 (initTravState seedC6))).1,
    (c6_convergence_dedup_amended ctxC6 rC6.max_branches
      (stepN ctxC6 rC6.max_branches 1 (initTravState seedC6))).2 "C" hmem⟩

/-! ## Text-length lemmas for the projection claims -/

theorem splitWsAux_ne_nil (l acc : List Char) :
    ∀ w ∈ splitWsAux l acc, w ≠ [] := by
  induction l generalizing acc with
  | nil =>
    intro w hw
    unfold splitWsAux at hw
    split at hw
    · simp at hw
    · rename_i hacc
      rcases List.mem_singleton.mp hw with rfl
      simpa using hacc
  | cons c cs ih =>
    intro w hw
    unfold splitWsAux at hw
    split at hw
    · split at hw
      · exact ih [] w hw
      · rename_i hacc
        rcases List.mem_cons.mp hw with rfl | hw
        · simpa using hacc
        · exact ih [] w hw
    · exact ih (c :: acc) w hw

theorem splitWsAux_len (l acc : List Char) :
    sumLens (splitWsAux l acc) + (splitWsAux l acc).length ≤
      l.length + acc.length + 1 := by
  induction l generalizing acc with
  | nil =>
    unfold splitWsAux
    split
    · simp [sumLens]
    · simp [sumLens]
  | cons c cs ih =>
    unfold splitWsAux
    split
    · split
      · have := ih []
        simp only [List.length_nil, Nat.add_zero] at this
        simp only [List.length_cons]
        omega
      · have := ih []
        simp only [List.length_nil, Nat.add_zero] at this
        simp only [sumLens, List.map_cons, List.sum_cons, List.length_cons,
          List.length_reverse]
        simp only [sumLens] at this
        omega
    · have := ih (c :: acc)
      simp only [List.length_cons] at this ⊢
      omega

theorem sumLens_append (a b : List (List Char)) :
    sumLens (a ++ b) = sumLens a + sumLens b := by
  simp [sumLens]

theorem length_le_sumLens (ws : List (List Char)) (h : ∀ w ∈ ws, w ≠ []) :
    ws.length ≤ sumLens ws := by
  induction ws with
  | nil => simp [sumLens]
  | cons w ws ih =>
    have hw : w ≠ [] := h w (List.mem_cons_self w ws)
    have h1 : 1 ≤ w.length := by
      cases w with
      | nil => simp at hw
      | cons a as => simp
    have := ih (fun x hx => h x (List.mem_cons_of_mem w hx))
    simp only [sumLens, List.map_cons, List.sum_cons, List.length_cons]
    simp only [sumLens] at this
    omega

theorem joinSpace_len (ws : List (List Char)) (h : ws ≠ []) :
    (joinSpace ws).length + 1 = sumLens ws + ws.length := by
  induction ws with
  | nil => simp at h
  | cons w ws ih =>
    cases ws with
    | nil => simp [joinSpace, sumLens]
    | cons x xs =>
      have := ih (by simp)
      simp only [joinSpace, List.length_append, List.length_cons, sumLens,
        List.map_cons, List.sum_cons] at this ⊢
      omega

theorem rstrip_len_le (l : List Char) : (rstripChars l).length ≤ l.length := by
  unfold rstripChars
  have h := (List.dropWhile_sublist (l := l.reverse) isWSChar).length_le
  simpa using h

theorem truncateStr_len_le (v : String) : (truncateStr v 140).length ≤ 140 := by
  unfold truncateStr
  split
  · assumption
  · rename_i h
    have h1 : (rstripChars (v.data.take (140 - 3))).length ≤ 137 := by
      calc (rstripChars (v.data.take (140 - 3))).length
          ≤ (v.data.take (140 - 3)).length := rstrip_len_le _
        _ ≤ 137 := by simp
    have : (String.mk (rstripChars (v.data.take (140 - 3))) ++ "...").length =
        (rstripChars (v.data.take (140 - 3))).length + 3 := by
      rw [String.length_append]
      rfl
    omega

theorem pickTextGo_some (props : List (String × String)) (ks : List String)
    (v : String) (h : pickTextGo props ks = some v) :
    ∃ raw, v = truncateStr raw 140 := by
  induction ks with
  | nil => simp [pickTextGo] at h
  | cons k ks ih =>
    unfold pickTextGo at h
    cases hlk : lookupProp props k with
    | none =>
      rw [hlk] at h
      exact ih h
    | some w =>
      rw [hlk] at h
      dsimp only at h
      split at h
      · exact ih h
      · exact ⟨_, (Option.some.inj h).symm⟩

theorem replaceAllGo_len_le (pat rep : List Char) (hpr : rep.length ≤ pat.length) :
    ∀ (fuel : ℕ) (l : List Char), (replaceAllGo pat rep fuel l).length ≤ l.length := by
  intro fuel
  induction fuel with
  | zero =>
    intro l
    cases l with
    | nil => simp [replaceAllGo]
    | cons c cs => simp [replaceAllGo]
  | succ fuel ih =>
    intro l
    cases l with
    | nil => simp [replaceAllGo]
    | cons c cs =>
      unfold replaceAllGo
      split
      · rename_i hcond
        have hpre : pat <+: (c :: cs) := List.isPrefixOf_iff_prefix.mp hcond.1
        have hlen : pat.length ≤ cs.length + 1 := by
          simpa using hpre.length_le
        have := ih ((c :: cs).drop pat.length)
        simp only [List.length_drop, List.length_cons] at this
        simp only [List.length_append, List.length_cons]
        omega
      · have := ih cs
        simp only [List.length_cons]
        omega

theorem replaceAll_len_le (pat rep : List Char) (hpr : rep.length ≤ pat.length)
    (l : List Char) : (replaceAll pat rep l).length ≤ l.length :=
  replaceAllGo_len_le pat rep hpr l.length l

theorem cleanUnicode_len_le (s : String) :
    (cleanUnicodeEscapes s).length ≤ s.length := by
  unfold cleanUnicodeEscapes
  show (replaceAll "\\u201d".data "\"".data _).length ≤ _
  calc (replaceAll "\\u201d".data "\"".data
          (replaceAll "\\u201c".data "\"".data
            (replaceAll "\\u2019".data "\x27".data
              (replaceAll "\\u2014".data "--".data
                (replaceAll "\\u2013".data "-".data s.data))))).length
      ≤ (replaceAll "\\u201c".data "\"".data
          (replaceAll "\\u2019".data "\x27".data
            (replaceAll "\\u2014".data "--".data
              (replaceAll "\\u2013".data "-".data s.data)))).length := by
        exact replaceAll_len_le _ _ (by decide) _
    _ ≤ (replaceAll "\\u2019".data "\x27".data
          (replaceAll "\\u2014".data "--".data
            (replaceAll "\\u2013".data "-".data s.data))).length := by
        exact replaceAll_len_le _ _ (by decide) _
    _ ≤ (replaceAll "\\u2014".data "--".data
          (replaceAll "\\u2013".data "-".data s.data)).length := by
        exact replaceAll_len_le _ _ (by decide) _
    _ ≤ (replaceAll "\\u2013".data "-".data s.data).length := by
        exact replaceAll_len_le _ _ (by decide) _
    _ ≤ s.data.length := replaceAll_len_le _ _ (by decide) _

/-- The displayed node text (12-word rule applied to `s`) is at most one
character longer than `s` itself. -/
theorem nodeTextDisplay_len_le (s : String) :
    (nodeTextDisplay s).length ≤ s.length + 1 := by
  unfold nodeTextDisplay wordCount firstNWords
  by_cases hwc : (splitWs s.data).length ≤ 12
  · rw [if_pos hwc, if_neg (by omega)]
    rw [String.length_append]
    simp
  · rw [if_neg hwc, if_pos (by omega)]
    rw [String.length_append]
    set ws := splitWs s.data with hws
    have hL : 13 ≤ ws.length := by omega
    have htk : (ws.take 12).length = 12 := by
      simp [List.length_take]
      omega
    have hne : ws.take 12 ≠ [] := by
      intro hemp
      rw [hemp] at htk
      simp at htk
    have hjoin := joinSpace_len (ws.take 12) hne
    rw [htk] at hjoin
    have hsplit : sumLens ws = sumLens (ws.take 12) + sumLens (ws.drop 12) := by
      rw [← sumLens_append]
      simp
    have hdropw : ∀ w ∈ ws.drop 12, w ≠ [] := by
      intro w hw
      exact splitWsAux_ne_nil s.data [] w (List.mem_of_mem_drop hw)
    have hdroplen : (ws.drop 12).length ≤ sumLens (ws.drop 12) :=
      length_le_sumLens _ hdropw
    have hdl : (ws.drop 12).length = ws.length - 12 := by
      simp [List.length_drop]
    have htotal : sumLens ws + ws.length ≤ s.data.length + 1 := by
      have := splitWsAux_len s.data []
      simpa [splitWs, sumLens] using this
    have hlen3 : ("..." : String).length = 3 := rfl
    rw [hlen3]
    show (joinSpace (ws.take 12)).length + 3 ≤ s.length + 1
    have : s.length = s.data.length := rfl
    omega

theorem strData_append (a b : String) : (a ++ b).data = a.data ++ b.data := rfl

theorem mem_joinSep_infix (sep : String) :
    ∀ (parts : List String) (s : String), s ∈ parts →
      s.data <:+: (joinSep sep parts).data := by
  intro parts
  induction parts with
  | nil =>
    intro s hs
    simp at hs
  | cons x xs ih =>
    intro s hs
    cases xs with
    | nil =>
      rcases List.mem_singleton.mp hs with rfl
      exact ⟨[], [], by simp [joinSep]⟩
    | cons y ys =>
      rcases List.mem_cons.mp hs with rfl | hs
      · exact ⟨[], (sep ++ joinSep sep (y :: ys)).data,
          by simp [joinSep, strData_append]⟩
      · have h2 := ih s hs
        have hsfx : (joinSep sep (y :: ys)).data <:+: (joinSep sep (x :: y :: ys)).data :=
          ⟨(x ++ sep).data, [], by simp [joinSep, strData_append]⟩
        exact h2.trans hsfx

theorem mem_llm_edge_parts (seed_id : String) (steps : List GraphStep)
    (st : GraphStep) (hst : st ∈ steps) :
    formatEdgeForLLM st ∈ pathParts seed_id steps := by
  cases steps with
  | nil => simp at hst
  | cons s0 ss =>
    unfold pathParts
    refine List.mem_cons_of_mem _ ?_
    have haux : ∀ (l : List GraphStep), st ∈ l →
        formatEdgeForLLM st ∈ l.foldr
          (fun stp acc => formatEdgeForLLM stp :: formatNodeForLLM stp.to_node false :: acc)
          [] := by
      intro l hl
      induction l with
      | nil => simp at hl
      | cons a as ih =>
        rcases List.mem_cons.mp hl with rfl | hl
        · simp
        · exact List.mem_cons_of_mem _ (List.mem_cons_of_mem _ (ih hl))
    exact haux (s0 :: ss) hst

theorem pathParts_ne_nil (seed_id : String) (steps : List GraphStep)
    (h : steps ≠ []) : pathParts seed_id steps ≠ [] := by
  cases steps with
  | nil => simp at h
  | cons s0 ss => simp [pathParts]

theorem mem_llmPathStrings (seed_id : String) :
    ∀ (paths : List GraphPath) (i : ℕ) (p : GraphPath), p ∈ paths →
      pathParts seed_id p.steps ≠ [] →
      ∃ s ∈ llmPathStrings seed_id paths i,
        (joinSep " -> " (pathParts seed_id p.steps)).data <:+: s.data := by
  intro paths
  induction paths with
  | nil =>
    intro i p hp
    simp at hp
  | cons q qs ih =>
    intro i p hp hne
    rcases List.mem_cons.mp hp with rfl | hp
    · refine ⟨"Path " ++ toString i ++ ": " ++ joinSep " -> " (pathParts seed_id p.steps),
        ?_, ?_⟩
      · simp only [llmPathStrings]
        rw [if_pos hne]
        exact List.mem_append.mpr (Or.inl (by simp))
      · exact ⟨("Path " ++ toString i ++ ": ").data, [], by simp [strData_append]⟩
    · obtain ⟨s, hs, hinf⟩ := ih (i + 1) p hp hne
      refine ⟨s, ?_, hinf⟩
      simp only [llmPathStrings]
      exact List.mem_append.mpr (Or.inr hs)

/-- **C9.** In the LLM-context path strings, only node text is truncated:
the displayed node text is the (cleaned) picked text itself when it has at
most 12 words, and its first 12 words followed by `"..."` exactly when it
has more than 12; the displayed text is what `_format_node_for_llm` renders.
Edge text is never truncated: the full cleaned edge text, in quotes, occurs
verbatim in the edge-meta bracket, and hence in every path string whose path
carries the edge. -/
theorem c9_node_truncated_edge_text_full :
    (∀ t : String, wordCount t ≤ 12 → nodeTextDisplay t = t) ∧
    (∀ t : String, 12 < wordCount t → nodeTextDisplay t = firstNWords t 12 ++ "...") ∧
    (∀ (node : GraphNode) (is_seed : Bool) (t : String),
        pickText node.properties = some t →
        (nodeTextDisplay (cleanUnicodeEscapes t)).data <:+:
          (formatNodeForLLM node is_seed).data) ∧
    (∀ (st : GraphStep) (et : String),
        lookupProp st.edge.properties "text" = some et → et ≠ "" →
        ("\"" ++ cleanUnicodeEscapes et ++ "\"").data <:+: (formatEdgeForLLM st).data) ∧
    (∀ (r : RetrievalResult) (p : GraphPath), p ∈ r.paths → ∀ st ∈ p.steps,
        ∀ et, lookupProp st.edge.properties "text" = some et → et ≠ "" →
          ∃ s ∈ toLLMContextPaths r, (cleanUnicodeEscapes et).data <:+: s.data) := by
  have hedge : ∀ (st : GraphStep) (et : String),
      lookupProp st.edge.properties "text" = some et → et ≠ "" →
      ("\"" ++ cleanUnicodeEscapes et ++ "\"").data <:+: (formatEdgeForLLM st).data := by
    intro st et hlk hne
    unfold formatEdgeForLLM
    rw [hlk]
    have hgd : (some et).getD "" = et := rfl
    rw [hgd]
    dsimp only
    rw [if_pos hne]
    have hqmem : ("\"" ++ cleanUnicodeEscapes et ++ "\"") ∈
        ((if (lookupProp st.edge.properties "id").getD "" ≠ ""
            then [(lookupProp st.edge.properties "id").getD ""] else []) ++
          ["\"" ++ cleanUnicodeEscapes et ++ "\""] ++
          (match st.edge.weight with
           | some w => ["weight=" ++ fmt3 w]
           | none => []) ++
          ["activation_score=" ++ fmt3 st.transfer_energy]) := by
      refine List.mem_append.mpr (Or.inl ?_)
      refine List.mem_append.mpr (Or.inl ?_)
      exact List.mem_append.mpr (Or.inr (by simp))
    have h1 := mem_joinSep_infix " " _ _ hqmem
    exact h1.trans ⟨"[".data, "]".data, by simp [strData_append]⟩
  refine ⟨?_, ?_, ?_, hedge, ?_⟩
  · intro t hwc
    have hwc2 : (splitWs t.data).length ≤ 12 := by simpa [wordCount] using hwc
    simp only [nodeTextDisplay, firstNWords, wordCount]
    rw [if_pos hwc2, if_neg (by omega)]
    simp
  · intro t hwc
    have hwc2 : 12 < (splitWs t.data).length := by simpa [wordCount] using hwc
    simp only [nodeTextDisplay, wordCount]
    rw [if_pos hwc2]
  · intro node is_seed t hpick
    unfold formatNodeForLLM
    rw [hpick]
    refine ⟨((if is_seed then "[SEED] " else "") ++ "(" ++ node.labels.headD "Node" ++
      " " ++ node.id ++ ": \"").data, "\")".data, ?_⟩
    simp [strData_append]
  · intro r p hp st hst et hlk hne
    have h4 := hedge st et hlk hne
    have hmemparts := mem_llm_edge_parts (resultSeedId r) p.steps st hst
    have hjoin := mem_joinSep_infix " -> " _ _ hmemparts
    have hne' : pathParts (resultSeedId r) p.steps ≠ [] :=
      pathParts_ne_nil _ _ (by intro hs; rw [hs] at hst; simp at hst)
    obtain ⟨s, hs, hinf⟩ := mem_llmPathStrings (resultSeedId r) r.paths 1 p hp hne'
    refine ⟨s, hs, ?_⟩
    have hclean : (cleanUnicodeEscapes et).data <:+:
        ("\"" ++ cleanUnicodeEscapes et ++ "\"").data :=
      ⟨"\"".data, "\"".data, by simp [strData_append]⟩
    exact (((hclean.trans h4).trans hjoin).trans hinf)

/-- Witness for `c9_node_truncated_edge_text_full`: a 13-word title is
truncated with `"..."`, and the full edge text of `stepEdgeText` occurs
verbatim in the rendered path string of `resultEdgeText`. -/
theorem c9_node_truncated_edge_text_full_witness :
    nodeTextDisplay "w1 w2 w3 w4 w5 w6 w7 w8 w9 w10 w11 w12 w13" =
      firstNWords "w1 w2 w3 w4 w5 w6 w7 w8 w9 w10 w11 w12 w13" 12 ++ "..." ∧
    (∃ s ∈ toLLMContextPaths resultEdgeText,
      (cleanUnicodeEscapes "this edge text stays complete and is never cut").data <:+:
        s.data) :=
  ⟨c9_node_truncated_edge_text_full.2.1 _ (by decide),
   c9_node_truncated_edge_text_full.2.2.2.2 resultEdgeText ⟨[stepEdgeText]⟩
     (by simp [resultEdgeText]) stepEdgeText (by simp) _ (by decide) (by decide)⟩

/-- **C10** (amended): the node text picked for display is the first
non-blank property among `title, name, text, summary, description`, stripped
and hard-capped at 140 characters (cut at 137, right-stripped, `"..."`
appended) *before* the 12-word display rule; hence the picked text is at most
140 characters, the rendered node text at most **141** characters, and the
rendered text can end in `"..."` even when it has 12 or fewer words. -/
theorem c10_node_text_bounds :
    (∀ (props : List (String × String)) (v : String), pickText props = some v →
        v.length ≤ 140 ∧ (nodeTextDisplay (cleanUnicodeEscapes v)).length ≤ 141) ∧
    (∃ (props : List (String × String)) (v : String), pickText props = some v ∧
        wordCount (cleanUnicodeEscapes v) ≤ 12 ∧
        "...".data <:+ (nodeTextDisplay (cleanUnicodeEscapes v)).data) := by
  constructor
  · intro props v hpick
    obtain ⟨raw, rfl⟩ := pickTextGo_some props _ v hpick
    have h140 := truncateStr_len_le raw
    have hclean := cleanUnicode_len_le (truncateStr raw 140)
    have hdisp := nodeTextDisplay_len_le (cleanUnicodeEscapes (truncateStr raw 140))
    exact ⟨h140, by omega⟩
  · refine ⟨[("title", String.mk (List.replicate 200 'a'))],
      String.mk (List.replicate 137 'a') ++ "...", ?_, ?_, ?_⟩
    · decide
    · decide
    · decide

/-- Witness for `c10_node_text_bounds` at the 140-character 13-word title
`c10Str`. -/
theorem c10_node_text_bounds_witness :
    pickText [("title", c10Str)] = some c10Str ∧
    c10Str.length ≤ 140 ∧
    (nodeTextDisplay (cleanUnicodeEscapes c10Str)).length ≤ 141 :=
  ⟨by decide, c10_node_text_bounds.1 [("title", c10Str)] c10Str (by decide)⟩

/-- **C10** (counterexample): on the 140-character, 13-word title `c10Str`
the rendered node text is 141 characters long — the claimed 140-character
bound on the rendered text fails. -/
theorem c10_rendered_length_141 :
    pickText [("title", c10Str)] = some c10Str ∧
    c10Str.length = 140 ∧
    (nodeTextDisplay (cleanUnicodeEscapes c10Str)).length = 141 := by
  refine ⟨by decide, by decide, by decide⟩
